import Mathlib

/-!
Verification of the Base58(Check) encoder in `src/main.cpp`.

The development shallowly embeds the program: bytes are `Nat` values
(`< 256` where it matters), buffers are `List Nat`, strings are
`List Char`, and the SHA-256 hash used by `checksum` is implemented
directly from FIPS 180-4 so that the whole pipeline is executable.
-/

/-- Truncate to a 32-bit word, as the C++ `std::uint32_t` arithmetic does. -/
def w32 (n : Nat) : Nat := n % 4294967296

/-- Right rotation of a 32-bit word by `k` bits. -/
def rotr (k x : Nat) : Nat := x / 2 ^ k + x % 2 ^ k * 2 ^ (32 - k)

def shaCh (x y z : Nat) : Nat := (x &&& y) ^^^ ((x ^^^ 4294967295) &&& z)

def shaMaj (x y z : Nat) : Nat := (x &&& y) ^^^ (x &&& z) ^^^ (y &&& z)

def bsig0 (x : Nat) : Nat := rotr 2 x ^^^ rotr 13 x ^^^ rotr 22 x

def bsig1 (x : Nat) : Nat := rotr 6 x ^^^ rotr 11 x ^^^ rotr 25 x

def ssig0 (x : Nat) : Nat := rotr 7 x ^^^ rotr 18 x ^^^ (x / 2 ^ 3)

def ssig1 (x : Nat) : Nat := rotr 17 x ^^^ rotr 19 x ^^^ (x / 2 ^ 10)

/-- The 64 SHA-256 round constants of FIPS 180-4, written in decimal. -/
def K256 : List Nat :=
  [1116352408, 1899447441, 3049323471, 3921009573,
   961987163, 1508970993, 2453635748, 2870763221,
   3624381080, 310598401, 607225278, 1426881987,
   1925078388, 2162078206, 2614888103, 3248222580,
   3835390401, 4022224774, 264347078, 604807628,
   770255983, 1249150122, 1555081692, 1996064986,
   2554220882, 2821834349, 2952996808, 3210313671,
   3336571891, 3584528711, 113926993, 338241895,
   666307205, 773529912, 1294757372, 1396182291,
   1695183700, 1986661051, 2177026350, 2456956037,
   2730485921, 2820302411, 3259730800, 3345764771,
   3516065817, 3600352804, 4094571909, 275423344,
   430227734, 506948616, 659060556, 883997877,
   958139571, 1322822218, 1537002063, 1747873779,
   1955562222, 2024104815, 2227730452, 2361852424,
   2428436474, 2756734187, 3204031479, 3329325298]

/-- The eight 32-bit working variables of SHA-256. -/
structure Hash8 where
  a : Nat
  b : Nat
  c : Nat
  d : Nat
  e : Nat
  f : Nat
  g : Nat
  h : Nat

/-- SHA-256 initial hash value, in decimal. -/
def initH : Hash8 :=
  ⟨1779033703, 3144134277, 1013904242, 2773480762,
   1359893119, 2600822924, 528734635, 1541459225⟩

/-- Big-endian 32-bit words from a byte list (used on each 64-byte block). -/
def beWords : List Nat → List Nat
  | b0 :: b1 :: b2 :: b3 :: rest =>
      (b0 * 2 ^ 24 + b1 * 2 ^ 16 + b2 * 2 ^ 8 + b3) :: beWords rest
  | _ => []

/-- The next word of the SHA-256 message schedule. -/
def nextW (ws : List Nat) : Nat :=
  w32 (ssig1 (ws.getD (ws.length - 2) 0) + ws.getD (ws.length - 7) 0 +
       ssig0 (ws.getD (ws.length - 15) 0) + ws.getD (ws.length - 16) 0)

/-- Extend the 16 block words by `k` further schedule words. -/
def extendW : Nat → List Nat → List Nat
  | 0, ws => ws
  | k + 1, ws => extendW k (ws ++ [nextW ws])

/-- One SHA-256 round, consuming a pair of round constant and schedule word. -/
def roundFn (s : Hash8) (kw : Nat × Nat) : Hash8 :=
  let t1 := w32 (s.h + bsig1 s.e + shaCh s.e s.f s.g + kw.1 + kw.2)
  let t2 := w32 (bsig0 s.a + shaMaj s.a s.b s.c)
  ⟨w32 (t1 + t2), s.a, s.b, s.c, w32 (s.d + t1), s.e, s.f, s.g⟩

/-- Compress one 64-byte block into the running hash value. -/
def compress (H : Hash8) (block : List Nat) : Hash8 :=
  let W := extendW 48 (beWords block)
  let s := (K256.zip W).foldl roundFn H
  ⟨w32 (H.a + s.a), w32 (H.b + s.b), w32 (H.c + s.c), w32 (H.d + s.d),
   w32 (H.e + s.e), w32 (H.f + s.f), w32 (H.g + s.g), w32 (H.h + s.h)⟩

/-- Big-endian 8-byte encoding of the message bit length. -/
def lenBE8 (L : Nat) : List Nat :=
  [L / 2 ^ 56 % 256, L / 2 ^ 48 % 256, L / 2 ^ 40 % 256, L / 2 ^ 32 % 256,
   L / 2 ^ 24 % 256, L / 2 ^ 16 % 256, L / 2 ^ 8 % 256, L % 256]

/-- SHA-256 padding: a 0x80 byte, zeros to 56 mod 64, then the bit length. -/
def padBytes (m : List Nat) : List Nat :=
  m ++ 128 :: (List.replicate ((119 - m.length % 64) % 64) 0 ++ lenBE8 (8 * m.length))

/-- Split a byte list into 64-byte blocks; the fuel bounds the recursion. -/
def chunk64 : Nat → List Nat → List (List Nat)
  | 0, _ => []
  | _ + 1, [] => []
  | f + 1, x :: xs => (x :: xs).take 64 :: chunk64 f ((x :: xs).drop 64)

/-- Big-endian bytes of one 32-bit word. -/
def wordBE4 (w : Nat) : List Nat :=
  [w / 2 ^ 24 % 256, w / 2 ^ 16 % 256, w / 2 ^ 8 % 256, w % 256]

/-- SHA-256 of a byte list, producing the 32 digest bytes. -/
def sha256 (m : List Nat) : List Nat :=
  let p := padBytes m
  let fin := (chunk64 p.length p).foldl compress initH
  wordBE4 fin.a ++ wordBE4 fin.b ++ wordBE4 fin.c ++ wordBE4 fin.d ++
  wordBE4 fin.e ++ wordBE4 fin.f ++ wordBE4 fin.g ++ wordBE4 fin.h

/-- `checksum` from `src/main.cpp`: the first four bytes of the double
SHA-256 digest of the message. -/
def checksum (msg : List Nat) : List Nat := (sha256 (sha256 msg)).take 4

/-- The in-place `memcpy` of the checksum over the first four bytes of the
caller's message buffer, as both encoders perform before encoding.
`List.set` beyond the end is a no-op, matching that only the buffer's own
bytes are observable to the encoder. -/
def embedChecksum (msg : List Nat) : List Nat :=
  let cs := checksum msg
  ((((msg.set 0 (cs.getD 0 0)).set 1 (cs.getD 1 0)).set 2
      (cs.getD 2 0)).set 3 (cs.getD 3 0))

/-- The alphabet `rippleAlphabet` from `src/main.cpp`. -/
def rippleAlphabet : List Char :=
  String.toList "rpshnaf39wBUDNEGHJKLM4PQRST7VWXYZ2bcdeCg65jkm8oFqi1tuvAxyz"

/-- Indexing into the ripple alphabet, as `alphabet[d]` does (always called
with `d < 58`). -/
def rippleChar (d : Nat) : Char := rippleAlphabet.getD d ' '

namespace ReferenceImpl

/-- One inner pass of the reference encoder: apply `b58 = b58 * 256 + ch`
to the scratch digits, iterating from the least-significant end toward the
most-significant one while propagating the carry, exactly as the `for`
loop over `iter` does.  Returns the updated digits and the residual carry
left after the most-significant position. -/
def mulAdd : List Nat → Nat → List Nat × Nat
  | [], carry => ([], carry)
  | d :: ds, carry =>
      let r := mulAdd ds carry
      let t := 256 * d + r.2
      (t % 58 :: r.1, t / 58)

/-- The outer `while (pbegin != pend)` loop of the reference encoder:
fold `mulAdd` over the payload bytes, recording the residual carry the
code's `assert(carry == 0)` inspects (and then drops) for each byte. -/
def refSteps : List Nat → List Nat → List Nat × List Nat
  | [], sc => (sc, [])
  | ch :: rest, sc =>
      let r := mulAdd sc ch
      let s := refSteps rest r.1
      (s.1, r.2 :: s.2)

/-- Lines 45–87 of `src/main.cpp`: the reference encoding of a buffer
(after checksum embedding) with a scratch buffer of `tempSize` digits:
count and skip leading zero bytes, run the multiply-add passes, skip
leading zero digits of the scratch buffer, and assemble the string. -/
def refCore (buf : List Nat) (tempSize : Nat) (alphabet : Nat → Char) : List Char :=
  let zeroes := (buf.takeWhile (· == 0)).length
  let rest := buf.dropWhile (· == 0)
  let sc := (refSteps rest (List.replicate tempSize 0)).1
  let digits := sc.dropWhile (· == 0)
  List.replicate zeroes (alphabet 0) ++ digits.map alphabet

/-- `ReferenceImpl::encodeBase58`: embed the checksum over the first four
bytes, then run the reference encoding core. -/
def encodeBase58 (message : List Nat) (tempSize : Nat) (alphabet : Nat → Char) : List Char :=
  refCore (embedChecksum message) tempSize alphabet

end ReferenceImpl

namespace NewImpl

/-- Big-endian import of the buffer as one unsigned integer, as
`import_bits` produces for the optimized encoder. -/
def beBytesToNat (b : List Nat) : Nat := b.foldl (fun a x => a * 256 + x) 0

/-- `58^10`, the chunk base `b5810` of the optimized encoder. -/
def b5810 : Nat := 430804206899405824

/-- The `while (toDecodeMP > 0)` loop with explicit fuel: repeatedly take
the remainder and quotient by `58^10`, least-significant chunk first. -/
def chunksGo : Nat → Nat → List Nat
  | 0, _ => []
  | f + 1, n => if n = 0 then [] else n % b5810 :: chunksGo f (n / b5810)

/-- The chunk sequence `coeff` of the optimized encoder.  The fuel `n`
always suffices because the chunk count is at most `log_b5810 n + 1`. -/
def chunksOf (n : Nat) : List Nat := chunksGo n n

/-- The inner `for (int i = 0; i < 10; ++i)` digit loop of the optimized
encoder: `k` iterations of `digit = c % 58; c /= 58; emit alphabet[digit]`
appended onto the accumulated character stream. -/
def innerTen (alphabet : Nat → Char) : Nat → Nat → List Char → List Char
  | 0, _, acc => acc
  | k + 1, c, acc => innerTen alphabet k (c / 58) (acc ++ [alphabet (c % 58)])

/-- The `for (auto c : coeff)` loop: ten digit characters per chunk pushed
onto one stream, least-significant digit first. -/
def newDigitStream (coeff : List Nat) (alphabet : Nat → Char) : List Char :=
  coeff.foldl (fun acc c => innerTen alphabet 10 c acc) []

/-- The trailing `while (!result.empty() && result.back() == alphabet[0])
result.pop_back();` loop: remove the longest suffix equal to the zero
symbol. -/
def stripTrailingZeroSyms (z : Char) (l : List Char) : List Char :=
  (l.reverse.dropWhile (· == z)).reverse

/-- Lines 109–162 of `src/main.cpp`: the optimized encoding of a buffer
(after checksum embedding): import as a big integer, split into `58^10`
chunks, emit ten digits per chunk, strip trailing zero symbols once, and
reverse. -/
def newCore (buf : List Nat) (alphabet : Nat → Char) : List Char :=
  let coeff := chunksOf (beBytesToNat buf)
  let result := newDigitStream coeff alphabet
  (stripTrailingZeroSyms (alphabet 0) result).reverse

/-- `NewImpl::encodeBase58`: reject payloads over 32 bytes with the
`PayloadTooLarge` throw, otherwise embed the checksum and encode. -/
def encodeBase58 (message : List Nat) (alphabet : Nat → Char) :
    Except String (List Char) :=
  if 32 < message.length then
    Except.error "Can only encode up to 256 bits"
  else
    Except.ok (newCore (embedChecksum message) alphabet)

end NewImpl

/-- The value of a scratch digit buffer read as a base-58 number,
most-significant digit first. -/
def val58 (D : List Nat) : Nat := D.foldl (fun a d => a * 58 + d) 0

/-! ## Helper lemmas -/

theorem foldl58_acc (D : List Nat) :
    ∀ a : Nat, D.foldl (fun a d => a * 58 + d) a =
      a * 58 ^ D.length + D.foldl (fun a d => a * 58 + d) 0 := by
  induction D with
  | nil => intro a; simp
  | cons d ds ih =>
      intro a
      simp only [List.foldl_cons, List.length_cons, Nat.zero_mul, Nat.zero_add]
      rw [ih (a * 58 + d), ih d]
      ring

theorem val58_cons (d : Nat) (ds : List Nat) :
    val58 (d :: ds) = d * 58 ^ ds.length + val58 ds := by
  simp only [val58, List.foldl_cons, Nat.zero_mul, Nat.zero_add]
  exact foldl58_acc ds d

theorem val58_lt (D : List Nat) (h : ∀ d ∈ D, d < 58) :
    val58 D < 58 ^ D.length := by
  induction D with
  | nil => simp [val58]
  | cons d ds ih =>
      rw [val58_cons]
      have hd : d < 58 := h d (by simp)
      have hds : val58 ds < 58 ^ ds.length := ih fun x hx => h x (by simp [hx])
      have : d * 58 ^ ds.length + val58 ds < (d + 1) * 58 ^ ds.length := by
        rw [Nat.add_mul, Nat.one_mul]
        omega
      calc d * 58 ^ ds.length + val58 ds < (d + 1) * 58 ^ ds.length := this
        _ ≤ 58 * 58 ^ ds.length := Nat.mul_le_mul_right _ (by omega)
        _ = 58 ^ (ds.length + 1) := by rw [Nat.pow_succ]; ring
        _ = 58 ^ (d :: ds).length := by simp

theorem val58_replicate_zero (T : Nat) : val58 (List.replicate T 0) = 0 := by
  induction T with
  | zero => rfl
  | succ n ih => rw [List.replicate_succ, val58_cons, ih]; simp

theorem mulAdd_spec (D : List Nat) (carry : Nat) :
    (ReferenceImpl.mulAdd D carry).1.length = D.length ∧
    (∀ d ∈ (ReferenceImpl.mulAdd D carry).1, d < 58) ∧
    58 ^ D.length * (ReferenceImpl.mulAdd D carry).2 +
      val58 (ReferenceImpl.mulAdd D carry).1 = 256 * val58 D + carry := by
  induction D generalizing carry with
  | nil => simp [ReferenceImpl.mulAdd, val58]
  | cons d ds ih =>
      obtain ⟨hlen, hdig, hval⟩ := ih carry
      refine ⟨?_, ?_, ?_⟩
      · simp [ReferenceImpl.mulAdd, hlen]
      · intro x hx
        simp only [ReferenceImpl.mulAdd, List.mem_cons] at hx
        rcases hx with h | h
        · subst h; exact Nat.mod_lt _ (by omega)
        · exact hdig x h
      · simp only [ReferenceImpl.mulAdd, List.length_cons]
        rw [val58_cons, hlen, val58_cons]
        set t := 256 * d + (ReferenceImpl.mulAdd ds carry).2 with ht
        have hdm : 58 * (t / 58) + t % 58 = t := Nat.div_add_mod t 58
        calc 58 ^ (ds.length + 1) * (t / 58) +
              (t % 58 * 58 ^ ds.length + val58 (ReferenceImpl.mulAdd ds carry).1)
            = 58 ^ ds.length * (58 * (t / 58) + t % 58) +
              val58 (ReferenceImpl.mulAdd ds carry).1 := by ring
          _ = 58 ^ ds.length * t + val58 (ReferenceImpl.mulAdd ds carry).1 := by
              rw [hdm]
          _ = 256 * (d * 58 ^ ds.length) +
              (58 ^ ds.length * (ReferenceImpl.mulAdd ds carry).2 +
                val58 (ReferenceImpl.mulAdd ds carry).1) := by rw [ht]; ring
          _ = 256 * (d * 58 ^ ds.length) + (256 * val58 ds + carry) := by rw [hval]
          _ = 256 * (d * 58 ^ ds.length + val58 ds) + carry := by ring

theorem mulAdd_carry_eq_zero (D : List Nat) (carry : Nat)
    (h : 256 * val58 D + carry < 58 ^ D.length) :
    (ReferenceImpl.mulAdd D carry).2 = 0 := by
  obtain ⟨-, -, hval⟩ := mulAdd_spec D carry
  by_contra hne
  have h1 : 1 ≤ (ReferenceImpl.mulAdd D carry).2 := Nat.one_le_iff_ne_zero.mpr hne
  have : 58 ^ D.length ≤ 58 ^ D.length * (ReferenceImpl.mulAdd D carry).2 :=
    Nat.le_mul_of_pos_right _ (by omega)
  omega

theorem mulAdd_value (D : List Nat) (carry : Nat)
    (h : 256 * val58 D + carry < 58 ^ D.length) :
    val58 (ReferenceImpl.mulAdd D carry).1 = 256 * val58 D + carry := by
  obtain ⟨-, -, hval⟩ := mulAdd_spec D carry
  rw [mulAdd_carry_eq_zero D carry h] at hval
  simpa using hval

theorem refSteps_all_zero (bytes : List Nat) :
    ∀ sc : List Nat, (∀ x ∈ bytes, x < 256) → (∀ d ∈ sc, d < 58) →
    256 ^ bytes.length * (val58 sc + 1) ≤ 58 ^ sc.length →
    ∀ c ∈ (ReferenceImpl.refSteps bytes sc).2, c = 0 := by
  induction bytes with
  | nil => intro sc _ _ _ c hc; simp [ReferenceImpl.refSteps] at hc
  | cons ch rest ih =>
      intro sc hb hsc hbound c hc
      have hch : ch < 256 := hb ch (by simp)
      have hpow : (0 : Nat) < 256 ^ rest.length := Nat.pos_pow_of_pos _ (by omega)
      have hstep : 256 * val58 sc + ch < 58 ^ sc.length := by
        have h1 : 256 * val58 sc + ch + 1 ≤ 256 * (val58 sc + 1) := by omega
        have h2 : 256 * (val58 sc + 1) ≤ 256 ^ (rest.length + 1) * (val58 sc + 1) := by
          have : (256 : Nat) ≤ 256 ^ (rest.length + 1) := by
            calc (256 : Nat) = 256 ^ 1 := (Nat.pow_one 256).symm
              _ ≤ 256 ^ (rest.length + 1) := Nat.pow_le_pow_right (by omega) (by omega)
          exact Nat.mul_le_mul_right _ this
        simp only [List.length_cons] at hbound
        omega
      obtain ⟨hlen, hdig, -⟩ := mulAdd_spec sc ch
      have hcz : (ReferenceImpl.mulAdd sc ch).2 = 0 := mulAdd_carry_eq_zero sc ch hstep
      have hval : val58 (ReferenceImpl.mulAdd sc ch).1 = 256 * val58 sc + ch :=
        mulAdd_value sc ch hstep
      simp only [ReferenceImpl.refSteps, List.mem_cons] at hc
      rcases hc with h | h
      · omega
      · refine ih (ReferenceImpl.mulAdd sc ch).1 (fun x hx => hb x (by simp [hx]))
          hdig ?_ c h
        rw [hlen, hval]
        have h1 : 256 * val58 sc + ch + 1 ≤ 256 * (val58 sc + 1) := by omega
        have h2 : 256 ^ rest.length * (256 * val58 sc + ch + 1) ≤
            256 ^ rest.length * (256 * (val58 sc + 1)) :=
          Nat.mul_le_mul_left _ h1
        have h3 : 256 ^ rest.length * (256 * (val58 sc + 1)) =
            256 ^ (rest.length + 1) * (val58 sc + 1) := by
          rw [Nat.pow_succ]; ring
        simp only [List.length_cons] at hbound
        omega

theorem chunksGo_zero (f : Nat) : NewImpl.chunksGo f 0 = [] := by
  cases f <;> simp [NewImpl.chunksGo]

theorem chunksGo_fuel_congr (f : Nat) :
    ∀ g n : Nat, n ≤ f → n ≤ g → NewImpl.chunksGo f n = NewImpl.chunksGo g n := by
  induction f with
  | zero =>
      intro g n hf _
      have : n = 0 := by omega
      subst this
      rw [chunksGo_zero, chunksGo_zero]
  | succ f ih =>
      intro g n hf hg
      rcases Nat.eq_zero_or_pos n with h0 | hpos
      · subst h0; rw [chunksGo_zero, chunksGo_zero]
      · cases g with
        | zero => omega
        | succ g =>
            have hne : n ≠ 0 := by omega
            have hdiv : n / NewImpl.b5810 < n :=
              Nat.div_lt_self hpos (by norm_num [NewImpl.b5810])
            simp only [NewImpl.chunksGo, if_neg hne]
            rw [ih g (n / NewImpl.b5810) (by omega) (by omega)]

theorem chunksOf_unfold (n : Nat) :
    NewImpl.chunksOf n =
      if n = 0 then [] else n % NewImpl.b5810 :: NewImpl.chunksOf (n / NewImpl.b5810) := by
  rcases Nat.eq_zero_or_pos n with h0 | hpos
  · subst h0; simp [NewImpl.chunksOf, chunksGo_zero]
  · have hne : n ≠ 0 := by omega
    have hdiv : n / NewImpl.b5810 < n :=
      Nat.div_lt_self hpos (by norm_num [NewImpl.b5810])
    obtain ⟨m, rfl⟩ : ∃ m, n = m + 1 := ⟨n - 1, by omega⟩
    simp only [if_neg hne, NewImpl.chunksOf, NewImpl.chunksGo, if_neg hne]
    congr 1
    exact chunksGo_fuel_congr m _ _ (by omega) (Nat.le_refl _)

theorem chunksGo_length_le (k : Nat) :
    ∀ f n : Nat, n < NewImpl.b5810 ^ k → n ≤ f → (NewImpl.chunksGo f n).length ≤ k := by
  induction k with
  | zero =>
      intro f n hk _
      have : n = 0 := by simpa using hk
      subst this
      simp [chunksGo_zero]
  | succ k ih =>
      intro f n hk hf
      rcases Nat.eq_zero_or_pos n with h0 | hpos
      · subst h0; simp [chunksGo_zero]
      · cases f with
        | zero => omega
        | succ f =>
            have hne : n ≠ 0 := by omega
            simp only [NewImpl.chunksGo, if_neg hne, List.length_cons]
            have hdiv : n / NewImpl.b5810 < NewImpl.b5810 ^ k := by
              rw [Nat.div_lt_iff_lt_mul (by norm_num [NewImpl.b5810])]
              calc n < NewImpl.b5810 ^ (k + 1) := hk
                _ = NewImpl.b5810 ^ k * NewImpl.b5810 := by rw [Nat.pow_succ]
            have hlt : n / NewImpl.b5810 < n :=
              Nat.div_lt_self hpos (by norm_num [NewImpl.b5810])
            have := ih f (n / NewImpl.b5810) hdiv (by omega)
            omega

theorem chunksGo_mem_lt (f : Nat) :
    ∀ n c : Nat, c ∈ NewImpl.chunksGo f n → c < NewImpl.b5810 := by
  induction f with
  | zero => intro n c hc; simp [NewImpl.chunksGo] at hc
  | succ f ih =>
      intro n c hc
      by_cases hn : n = 0
      · subst hn; rw [chunksGo_zero] at hc; simp at hc
      · simp only [NewImpl.chunksGo, if_neg hn, List.mem_cons] at hc
        rcases hc with h | h
        · subst h; exact Nat.mod_lt _ (by norm_num [NewImpl.b5810])
        · exact ih _ c h

theorem foldl256_lt (b : List Nat) :
    ∀ acc : Nat, (∀ x ∈ b, x < 256) →
      b.foldl (fun a x => a * 256 + x) acc < (acc + 1) * 256 ^ b.length := by
  induction b with
  | nil => intro acc _; simp
  | cons x xs ih =>
      intro acc hb
      have hx : x < 256 := hb x (by simp)
      simp only [List.foldl_cons, List.length_cons]
      have h1 := ih (acc * 256 + x) (fun y hy => hb y (by simp [hy]))
      have h2 : (acc * 256 + x + 1) * 256 ^ xs.length ≤
          (acc + 1) * 256 ^ (xs.length + 1) := by
        have : acc * 256 + x + 1 ≤ (acc + 1) * 256 := by omega
        calc (acc * 256 + x + 1) * 256 ^ xs.length
            ≤ (acc + 1) * 256 * 256 ^ xs.length := Nat.mul_le_mul_right _ this
          _ = (acc + 1) * 256 ^ (xs.length + 1) := by rw [Nat.pow_succ]; ring
      omega

theorem beBytesToNat_lt (b : List Nat) (hb : ∀ x ∈ b, x < 256) :
    NewImpl.beBytesToNat b < 256 ^ b.length := by
  have := foldl256_lt b 0 hb
  simpa [NewImpl.beBytesToNat] using this

theorem beBytesToNat_zero (b : List Nat) (hb : ∀ x ∈ b, x = 0) :
    NewImpl.beBytesToNat b = 0 := by
  induction b with
  | nil => rfl
  | cons x xs ih =>
      have hx : x = 0 := hb x (by simp)
      have hstep : NewImpl.beBytesToNat (x :: xs) = NewImpl.beBytesToNat xs := by
        simp [NewImpl.beBytesToNat, hx]
      rw [hstep]
      exact ih fun y hy => hb y (by simp [hy])

theorem innerTen_spec (alphabet : Nat → Char) (k : Nat) :
    ∀ (c : Nat) (acc : List Char),
      NewImpl.innerTen alphabet k c acc =
        acc ++ (List.range k).map (fun j => alphabet (c / 58 ^ j % 58)) := by
  induction k with
  | zero => intro c acc; simp [NewImpl.innerTen]
  | succ k ih =>
      intro c acc
      rw [NewImpl.innerTen, ih (c / 58) (acc ++ [alphabet (c % 58)])]
      rw [List.range_succ_eq_map]
      have hfun : (fun j => alphabet (c / 58 / 58 ^ j % 58)) =
          ((fun j => alphabet (c / 58 ^ j % 58)) ∘ Nat.succ) := by
        funext j
        simp only [Function.comp_apply]
        congr 2
        rw [Nat.div_div_eq_div_mul]
        congr 1
        rw [Nat.pow_succ]
        ring
      rw [hfun]
      simp [List.map_map]

theorem newDigitStream_aux (alphabet : Nat → Char) (coeff : List Nat) :
    ∀ acc : List Char,
      coeff.foldl (fun acc c => NewImpl.innerTen alphabet 10 c acc) acc =
        acc ++ coeff.flatMap
          (fun c => (List.range 10).map (fun j => alphabet (c / 58 ^ j % 58))) := by
  induction coeff with
  | nil => intro acc; simp
  | cons c cs ih =>
      intro acc
      simp only [List.foldl_cons, List.flatMap_cons]
      rw [innerTen_spec, ih]
      simp [List.append_assoc]

theorem newDigitStream_spec (alphabet : Nat → Char) (coeff : List Nat) :
    NewImpl.newDigitStream coeff alphabet =
      coeff.flatMap (fun c => (List.range 10).map (fun j => alphabet (c / 58 ^ j % 58))) := by
  have := newDigitStream_aux alphabet coeff []
  simpa [NewImpl.newDigitStream] using this

theorem newDigitStream_length (alphabet : Nat → Char) (coeff : List Nat) :
    (NewImpl.newDigitStream coeff alphabet).length = 10 * coeff.length := by
  rw [newDigitStream_spec]
  induction coeff with
  | nil => simp
  | cons c cs ih =>
      simp only [List.flatMap_cons, List.length_append, List.length_map,
        List.length_range, List.length_cons, ih]
      omega

theorem list_eq_four {α : Type} (l : List α) (h : l.length = 4) :
    ∃ a b c d, l = [a, b, c, d] := by
  match l, h with
  | [a, b, c, d], _ => exact ⟨a, b, c, d, rfl⟩

theorem sha256_length (m : List Nat) : (sha256 m).length = 32 := by
  simp [sha256, wordBE4]

theorem checksum_length (m : List Nat) : (checksum m).length = 4 := by
  simp [checksum, List.length_take, sha256_length]

theorem embedChecksum_split (m : List Nat) :
    embedChecksum m = (checksum m).take m.length ++ m.drop 4 := by
  obtain ⟨c0, c1, c2, c3, hcs⟩ := list_eq_four (checksum m) (checksum_length m)
  match m with
  | [] => simp [embedChecksum]
  | [a] => simp [embedChecksum, hcs]
  | [a, b] => simp [embedChecksum, hcs]
  | [a, b, c] => simp [embedChecksum, hcs]
  | a :: b :: c :: d :: t =>
      simp only [embedChecksum, hcs, List.set]
      simp only [List.length_cons, List.drop_succ_cons, List.drop_zero]
      rw [List.take_of_length_le (by simp [hcs])]
      simp [hcs]

/-! ## Claim theorems -/

set_option maxRecDepth 2000000 in
/-- Claim C1 (code bug): the two encoders are not byte-identical on every
valid payload.  For the 4-byte payload `[227, 0, 0, 0]` the embedded
checksum is `[0, 109, 240, 1]`, so the buffer actually encoded starts with
a zero byte; the reference encoder emits a leading zero symbol for it
while the optimized encoder drops it. -/
theorem c1_divergence :
    ReferenceImpl.encodeBase58 [227, 0, 0, 0] 12 rippleChar =
      rippleChar 0 :: ['d', 'v', 'k', 'F'] ∧
    NewImpl.encodeBase58 [227, 0, 0, 0] rippleChar = Except.ok ['d', 'v', 'k', 'F'] ∧
    ReferenceImpl.encodeBase58 [227, 0, 0, 0] 12 rippleChar ≠ ['d', 'v', 'k', 'F'] := by
  refine ⟨by decide, ?_, by decide⟩
  have h : NewImpl.newCore (embedChecksum [227, 0, 0, 0]) rippleChar =
      ['d', 'v', 'k', 'F'] := by decide
  simp [NewImpl.encodeBase58, h]

set_option maxRecDepth 2000000 in
/-- Claim C2 (code bug): for the payload `[241, 2, 0, 0]` the embedded
buffer `[0, 225, 236, 201]` has one leading zero byte, but the optimized
encoder's output has no leading zero-symbol at all: it never counts the
leading zero bytes of the buffer it encodes. -/
theorem c2_divergence :
    NewImpl.encodeBase58 [241, 2, 0, 0] rippleChar =
      Except.ok ['p', 'J', 't', '4', 'c'] ∧
    ((embedChecksum [241, 2, 0, 0]).takeWhile (· == 0)).length = 1 ∧
    (['p', 'J', 't', '4', 'c'].takeWhile (· == rippleChar 0)).length = 0 := by
  refine ⟨?_, by decide, by decide⟩
  have h : NewImpl.newCore (embedChecksum [241, 2, 0, 0]) rippleChar =
      ['p', 'J', 't', '4', 'c'] := by decide
  simp [NewImpl.encodeBase58, h]

/-- Claim C3 (code bug): an all-zero buffer of nonzero length reaching the
encoding core yields the empty string from the optimized encoder, while
the reference encoder yields one zero-symbol per byte, so for the
optimized encoder the output is neither "empty iff the encoded payload has
length zero" nor a run of zero-symbols. -/
theorem c3_divergence :
    NewImpl.newCore [0, 0, 0, 0, 0] rippleChar = [] ∧
    ReferenceImpl.refCore [0, 0, 0, 0, 0] 15 rippleChar =
      List.replicate 5 (rippleChar 0) ∧
    ¬ ([0, 0, 0, 0, 0] : List Nat).length = 0 := by
  refine ⟨by decide, by decide, by decide⟩

/-- Claim C4: `NewImpl::encodeBase58` fails with the `PayloadTooLarge`
throw for every input longer than 32 bytes, producing no result at all,
and for inputs of at most 32 bytes that error branch is never taken. -/
theorem c4_payload_too_large (m : List Nat) (alphabet : Nat → Char) :
    (32 < m.length →
      NewImpl.encodeBase58 m alphabet =
        Except.error "Can only encode up to 256 bits") ∧
    (m.length ≤ 32 → ∃ s, NewImpl.encodeBase58 m alphabet = Except.ok s) := by
  constructor
  · intro h
    simp [NewImpl.encodeBase58, h]
  · intro h
    refine ⟨NewImpl.newCore (embedChecksum m) alphabet, ?_⟩
    simp [NewImpl.encodeBase58, Nat.not_lt.mpr h]

/-- Witness for C4 at concrete inputs of length 33 and length 4. -/
theorem c4_witness :
    NewImpl.encodeBase58 (List.replicate 33 0) rippleChar =
      Except.error "Can only encode up to 256 bits" ∧
    ∃ s, NewImpl.encodeBase58 [1, 2, 3, 4] rippleChar = Except.ok s :=
  ⟨(c4_payload_too_large (List.replicate 33 0) rippleChar).1 (by decide),
   (c4_payload_too_large [1, 2, 3, 4] rippleChar).2 (by decide)⟩

/-- Counterexample for C5: with the one-digit scratch buffer and the byte
`255`, the multiply-add pass leaves the nonzero residual carry `4`, yet
the call still returns a plain (truncated) string - dropping the leading
digit `4` of the two-digit representation `[4, 23]` of `255` - instead of
surfacing any `BufferTooSmall` error (the code has only a debug `assert`). -/
theorem c5_counterexample :
    (ReferenceImpl.refSteps [255] (List.replicate 1 0)).2 = [4] ∧
    ReferenceImpl.refCore [255] 1 rippleChar = [rippleChar 23] ∧
    ReferenceImpl.refCore [255] 2 rippleChar = [rippleChar 4, rippleChar 23] ∧
    ([rippleChar 23] : List Char) ≠ [rippleChar 4, rippleChar 23] := by
  refine ⟨by decide, by decide, by decide, by decide⟩

/-- Claim C5 as amended: whenever the scratch buffer is large enough
(`256 ^ len ≤ 58 ^ tempSize` suffices), every residual carry of the
multiply-by-256-and-add pass is exactly zero; an undersized scratch
buffer silently truncates instead of producing an error. -/
theorem c5_carry_zero (b : List Nat) (T : Nat) (hb : ∀ x ∈ b, x < 256)
    (hT : 256 ^ b.length ≤ 58 ^ T) :
    ∀ c ∈ (ReferenceImpl.refSteps b (List.replicate T 0)).2, c = 0 := by
  apply refSteps_all_zero b (List.replicate T 0) hb
  · intro d hd
    have := List.eq_of_mem_replicate hd
    omega
  · rw [val58_replicate_zero, List.length_replicate]
    simpa using hT

/-- Witness for C5 at the two-byte buffer `[7, 200]` with three scratch
digits: the first recorded residual carry is zero. -/
theorem c5_witness :
    (ReferenceImpl.refSteps [7, 200] (List.replicate 3 0)).2.getD 0 1 = 0 := by
  apply c5_carry_zero [7, 200] 3 (by decide) (by decide)
  decide

/-- Claim C6: checksum embedding replaces bytes `[0, 4)` of the buffer
with the first four bytes of the double SHA-256 of the original buffer
contents, keeps the length, and changes no byte at index 4 or beyond. -/
theorem c6_embed_checksum (m : List Nat) (h4 : 4 ≤ m.length) :
    embedChecksum m = checksum m ++ m.drop 4 ∧
    (embedChecksum m).length = m.length ∧
    ∀ i, 4 ≤ i → (embedChecksum m)[i]? = m[i]? := by
  have hsplit : embedChecksum m = checksum m ++ m.drop 4 := by
    rw [embedChecksum_split, List.take_of_length_le (by rw [checksum_length]; omega)]
  refine ⟨hsplit, ?_, ?_⟩
  · simp [embedChecksum]
  · intro i hi
    rw [hsplit, List.getElem?_append_right (by rw [checksum_length]; omega)]
    rw [checksum_length, List.getElem?_drop]
    congr 1
    omega

/-- Witness for C6 at the five-byte buffer `[9, 9, 9, 9, 200]`. -/
theorem c6_witness :
    embedChecksum [9, 9, 9, 9, 200] =
      checksum [9, 9, 9, 9, 200] ++ ([9, 9, 9, 9, 200] : List Nat).drop 4 ∧
    (embedChecksum [9, 9, 9, 9, 200]).length = ([9, 9, 9, 9, 200] : List Nat).length ∧
    ∀ i, 4 ≤ i →
      (embedChecksum [9, 9, 9, 9, 200])[i]? = ([9, 9, 9, 9, 200] : List Nat)[i]? :=
  c6_embed_checksum [9, 9, 9, 9, 200] (by decide)

/-- Claim C7: the digit loop of the optimized encoder emits exactly ten
digits per chunk - digit `j` of chunk `c` being `c / 58 ^ j % 58`, even
after the running value reaches zero - in chunk order; trailing
zero-symbols are stripped once from the whole stream at the very end, and
the stripped stream is reversed into most-significant-first order. -/
theorem c7_digit_loop (coeff : List Nat) (b : List Nat) (alphabet : Nat → Char) :
    NewImpl.newDigitStream coeff alphabet =
      coeff.flatMap (fun c => (List.range 10).map fun j => alphabet (c / 58 ^ j % 58)) ∧
    (NewImpl.newDigitStream coeff alphabet).length = 10 * coeff.length ∧
    NewImpl.newCore b alphabet =
      (NewImpl.newDigitStream (NewImpl.chunksOf (NewImpl.beBytesToNat b))
        alphabet).reverse.dropWhile (· == alphabet 0) := by
  refine ⟨newDigitStream_spec alphabet coeff, newDigitStream_length alphabet coeff, ?_⟩
  simp [NewImpl.newCore, NewImpl.stripTrailingZeroSyms, List.reverse_reverse]

/-- Claim C8: for any buffer of at most 32 bytes, the repeated division by
`58 ^ 10` produces at most five chunks, each strictly below `58 ^ 10`, so
the five-slot `static_vector` is never exceeded. -/
theorem c8_chunk_bound (b : List Nat) (hlen : b.length ≤ 32)
    (hb : ∀ x ∈ b, x < 256) :
    (NewImpl.chunksOf (NewImpl.beBytesToNat b)).length ≤ 5 ∧
    ∀ c ∈ NewImpl.chunksOf (NewImpl.beBytesToNat b), c < 430804206899405824 := by
  have hN : NewImpl.beBytesToNat b < NewImpl.b5810 ^ 5 := by
    calc NewImpl.beBytesToNat b < 256 ^ b.length := beBytesToNat_lt b hb
      _ ≤ 256 ^ 32 := Nat.pow_le_pow_right (by omega) hlen
      _ ≤ NewImpl.b5810 ^ 5 := by norm_num [NewImpl.b5810]
  constructor
  · exact chunksGo_length_le 5 _ _ hN (Nat.le_refl _)
  · intro c hc
    have := chunksGo_mem_lt _ _ c hc
    simpa [NewImpl.b5810] using this

/-- Witness for C8 at the maximal 32-byte buffer of `0xFF` bytes. -/
theorem c8_witness :
    (NewImpl.chunksOf (NewImpl.beBytesToNat (List.replicate 32 255))).length ≤ 5 ∧
    ∀ c ∈ NewImpl.chunksOf (NewImpl.beBytesToNat (List.replicate 32 255)),
      c < 430804206899405824 :=
  c8_chunk_bound (List.replicate 32 255) (by decide) (by decide)

/-- Claim C9: both entry points encode the buffer obtained by overwriting
bytes `[0, 4)` with the double-hash checksum of the original payload, so
the output depends on the original bytes `[0, 4)` only through that
double hash: payloads of equal length that agree from byte 4 on and have
equal checksums encode identically under both encoders. -/
theorem c9_checksum_dependence (m1 m2 : List Nat) (T : Nat)
    (alphabet : Nat → Char) (hlen : m1.length = m2.length)
    (hdrop : m1.drop 4 = m2.drop 4) (hcs : checksum m1 = checksum m2) :
    ReferenceImpl.encodeBase58 m1 T alphabet =
      ReferenceImpl.encodeBase58 m2 T alphabet ∧
    NewImpl.encodeBase58 m1 alphabet = NewImpl.encodeBase58 m2 alphabet := by
  have he : embedChecksum m1 = embedChecksum m2 := by
    rw [embedChecksum_split, embedChecksum_split, hcs, hlen, hdrop]
  constructor
  · simp [ReferenceImpl.encodeBase58, he]
  · simp [NewImpl.encodeBase58, he, hlen]

set_option maxRecDepth 2000000 in
/-- Witness for C9: the distinct payloads `[50, 30, 0, 0, 7]` and
`[20, 124, 2, 0, 7]` differ only in bytes `[0, 4)` and collide on their
double-hash checksum `[40, 114, 149, 253]`, so both encoders map them to
the same output. -/
theorem c9_witness :
    ReferenceImpl.encodeBase58 [50, 30, 0, 0, 7] 15 rippleChar =
      ReferenceImpl.encodeBase58 [20, 124, 2, 0, 7] 15 rippleChar ∧
    NewImpl.encodeBase58 [50, 30, 0, 0, 7] rippleChar =
      NewImpl.encodeBase58 [20, 124, 2, 0, 7] rippleChar :=
  c9_checksum_dependence [50, 30, 0, 0, 7] [20, 124, 2, 0, 7] 15 rippleChar
    (by decide) (by decide) (by decide)

/-- Claim C10: when the buffer the optimized encoder actually encodes is
all zero bytes, the imported big integer is zero, no chunk is produced,
and the result is the empty string regardless of the buffer's length. -/
theorem c10_all_zero_buffer (b : List Nat) (alphabet : Nat → Char)
    (hz : ∀ x ∈ b, x = 0) :
    NewImpl.chunksOf (NewImpl.beBytesToNat b) = [] ∧
    NewImpl.newCore b alphabet = [] := by
  have hN : NewImpl.beBytesToNat b = 0 := beBytesToNat_zero b hz
  have hc : NewImpl.chunksOf (NewImpl.beBytesToNat b) = [] := by
    rw [hN, chunksOf_unfold]
    simp
  refine ⟨hc, ?_⟩
  simp [NewImpl.newCore, hc, NewImpl.newDigitStream, NewImpl.stripTrailingZeroSyms]

/-- Witness for C10 at a six-byte all-zero buffer. -/
theorem c10_witness :
    NewImpl.chunksOf (NewImpl.beBytesToNat [0, 0, 0, 0, 0, 0]) = [] ∧
    NewImpl.newCore [0, 0, 0, 0, 0, 0] rippleChar = [] :=
  c10_all_zero_buffer [0, 0, 0, 0, 0, 0] rippleChar (by decide)
